import Mathlib

/-!
# Verification of the SEBA spectral energy budget core

Shallow embedding of the core routines of the SEBA repository
(`tools.py`, `AtmosphericEnergyBudget.py`, `src/seba.py`) together with
proofs about the properties stated in the specification.

Conventions used throughout:
* machine floats are modelled by `ℚ` (when concrete evaluation matters)
  or `ℝ` (when `π` or square roots appear); complex spectral
  coefficients by `ℂ`;
* multi-dimensional `numpy` arrays are modelled by a flat data list in
  C order together with a shape list;
* fallible code returns `Except String`.
-/

namespace SEBA

/-! ## tools.number_chunks (tools.py, lines 177-183)

Python source:
```
def number_chunks(sample_size, workers):
    jobs = workers
    while sample_size % jobs:
        jobs -= 1
    return jobs if jobs != 1 else workers
```
-/

/-- The `while sample_size % jobs: jobs -= 1` loop of `number_chunks`:
starting from `jobs`, decrement until `sample_size % jobs == 0`.
(The `0` case is unreachable for `jobs ≥ 1` since `s % 1 = 0`.) -/
def downDivisor (sampleSize : ℕ) : ℕ → ℕ
  | 0 => 0
  | j + 1 => if sampleSize % (j + 1) = 0 then j + 1 else downDivisor sampleSize j

/-- `tools.number_chunks`: find the factor of `sample_size` closest from
below to `workers`; if the loop bottoms out at `1`, the original
`workers` is returned. -/
def number_chunks (sampleSize workers : ℕ) : ℕ :=
  let jobs := downDivisor sampleSize workers
  if jobs ≠ 1 then jobs else workers

lemma downDivisor_le (s : ℕ) : ∀ w, downDivisor s w ≤ w := by
  intro w
  induction w with
  | zero => simp [downDivisor]
  | succ j ih =>
    unfold downDivisor
    split
    · exact le_refl _
    · exact le_trans ih (Nat.le_succ j)

lemma downDivisor_mod (s : ℕ) : ∀ w, 1 ≤ w → s % downDivisor s w = 0 := by
  intro w
  induction w with
  | zero => omega
  | succ j ih =>
    intro _
    by_cases hc : s % (j + 1) = 0
    · simp [downDivisor, hc]
    · have hj : 1 ≤ j := by
        rcases Nat.eq_zero_or_pos j with h0 | h0
        · subst h0; exact absurd (Nat.mod_one s) hc
        · exact h0
      simpa [downDivisor, hc] using ih hj

lemma downDivisor_pos (s : ℕ) : ∀ w, 1 ≤ w → 1 ≤ downDivisor s w := by
  intro w
  induction w with
  | zero => omega
  | succ j ih =>
    intro _
    by_cases hc : s % (j + 1) = 0
    · simp [downDivisor, hc]
    · have hj : 1 ≤ j := by
        rcases Nat.eq_zero_or_pos j with h0 | h0
        · subst h0; exact absurd (Nat.mod_one s) hc
        · exact h0
      simpa [downDivisor, hc] using ih hj

/-- Maximality of the divisor found by the loop: no integer strictly
between the result and `w` divides `s`. -/
lemma downDivisor_max (s : ℕ) :
    ∀ w j, downDivisor s w < j → j ≤ w → ¬ s % j = 0 := by
  intro w
  induction w with
  | zero => intro j h1 h2; omega
  | succ k ih =>
    intro j h1 h2 hdvd
    unfold downDivisor at h1
    by_cases hc : s % (k + 1) = 0
    · simp only [hc, if_pos] at h1; omega
    · simp only [hc, if_neg, not_false_iff] at h1
      rcases Nat.lt_or_ge j (k + 1) with hj | hj
      · exact ih j h1 (by omega) hdvd
      · have : j = k + 1 := by omega
        subst this; exact hc hdvd

/-- C7 counterexample input: with `sample_size = 7`, `workers = 4` the
loop bottoms out at 1 and the function returns the original `workers`
count 4, which does not divide 7, instead of falling back to one
worker. -/
theorem number_chunks_no_divisor_returns_workers :
    number_chunks 7 4 = 4 ∧ number_chunks 7 4 ≠ 1 ∧
      ¬ 7 % number_chunks 7 4 = 0 ∧ ∀ j < 5, 1 < j → ¬ 7 % j = 0 := by
  decide

/-- C7 (amended): `number_chunks sample_size workers` returns the
largest integer `d ≤ workers` with `d ∣ sample_size` when some such
`d > 1` exists, searching downward from `workers`; when no divisor
other than 1 is found it returns the original `workers` count (not 1). -/
theorem number_chunks_spec (s w : ℕ) (hw : 1 ≤ w) :
    ((∃ j, 1 < j ∧ j ≤ w ∧ j ∣ s) →
      number_chunks s w ∣ s ∧ 1 < number_chunks s w ∧ number_chunks s w ≤ w ∧
        ∀ j, number_chunks s w < j → j ≤ w → ¬ j ∣ s) ∧
    ((∀ j, 1 < j → j ≤ w → ¬ j ∣ s) → number_chunks s w = w) := by
  have hle := downDivisor_le s w
  have hmod := downDivisor_mod s w hw
  have hpos := downDivisor_pos s w hw
  have hmax := downDivisor_max s w
  constructor
  · rintro ⟨j, hj1, hjw, hjd⟩
    have hgt : 1 < downDivisor s w := by
      by_contra hnot
      have h1 : downDivisor s w = 1 := by omega
      have := hmax j (by omega) hjw
      exact this (Nat.eq_zero_of_dvd_of_lt hjd |> fun _ => Nat.mod_eq_zero_of_dvd hjd)
    have hne : downDivisor s w ≠ 1 := by omega
    simp only [number_chunks, hne, if_pos, ne_eq, not_false_eq_true, if_true]
    refine ⟨Nat.dvd_of_mod_eq_zero hmod, hgt, hle, ?_⟩
    intro k hk1 hk2 hkd
    exact hmax k hk1 hk2 (Nat.mod_eq_zero_of_dvd hkd)
  · intro hno
    rcases Nat.lt_or_ge 1 (downDivisor s w) with hgt | hle1
    · exact absurd (Nat.dvd_of_mod_eq_zero hmod) (hno _ hgt hle)
    · have h1 : downDivisor s w = 1 := by omega
      simp [number_chunks, h1]

/-- C7 witness: concrete instantiation at `sample_size = 6`,
`workers = 4` (largest divisor is 3). -/
theorem number_chunks_spec_witness :
    1 ≤ 4 ∧
    ((∃ j, 1 < j ∧ j ≤ 4 ∧ j ∣ 6) →
      number_chunks 6 4 ∣ 6 ∧ 1 < number_chunks 6 4 ∧ number_chunks 6 4 ≤ 4 ∧
        ∀ j, number_chunks 6 4 < j → j ≤ 4 → ¬ j ∣ 6) ∧
    ((∀ j, 1 < j → j ≤ 4 → ¬ j ∣ 6) → number_chunks 6 4 = 4) :=
  ⟨by decide, number_chunks_spec 6 4 (by decide)⟩

/-! ## tools.terrain_mask (tools.py, lines 539-573), unsmoothed branch

Python source (with `smooth=False` the Lanczos branch is skipped):
```
level_m = p.size - np.searchsorted(np.sort(p), ps)
beta = np.zeros((nlat, nlon, nlevels))
for ij in np.ndindex(*level_m.shape):
    beta[ij][level_m[ij]:] = 1.0
return beta.clip(0.0, 1.0)
```
-/

/-- `np.sort` (ascending) on a 1D array, via insertion sort. -/
def npSort (l : List ℚ) : List ℚ := List.insertionSort (· ≤ ·) l

/-- `np.searchsorted(a, x)` with the default `side='left'`: index of the
first element of the (sorted) list that is `≥ x`, or the length if none. -/
def searchsortedLeft (x : ℚ) : List ℚ → ℕ
  | [] => 0
  | y :: ys => if x ≤ y then 0 else 1 + searchsortedLeft x ys

/-- `tools.terrain_mask(p, ps, smooth=False)` evaluated at horizontal
point `ij` and vertical index `k`: 0 on levels pierced by the terrain
(`p > ps`), 1 otherwise, finally clipped to `[0, 1]`.  `p` is the 1D
pressure profile and `ps` the surface pressure field over an arbitrary
horizontal index type. -/
def terrain_mask {I : Type} (p : List ℚ) (ps : I → ℚ) (ij : I) (k : ℕ) : ℚ :=
  let level_m : ℕ := p.length - searchsortedLeft (ps ij) (npSort p)
  let beta : ℚ := if level_m ≤ k then 1.0 else 0.0
  min (max beta 0.0) 1.0

/-- On an ascending-sorted list, the left insertion point of `x` is the
number of elements strictly below `x`. -/
lemma searchsortedLeft_sorted (x : ℚ) :
    ∀ l : List ℚ, l.Sorted (· ≤ ·) → searchsortedLeft x l = l.countP (· < x) := by
  intro l
  induction l with
  | nil => intro _; rfl
  | cons y ys ih =>
    intro hs
    rw [List.sorted_cons] at hs
    by_cases hxy : x ≤ y
    · have hnone : ∀ z ∈ y :: ys, ¬ (z < x) := by
        intro z hz
        rcases List.mem_cons.mp hz with rfl | hz'
        · exact not_lt.mpr hxy
        · exact not_lt.mpr (le_trans hxy (hs.1 z hz'))
      have : (y :: ys).countP (fun z => decide (z < x)) = 0 := by
        rw [List.countP_eq_zero]
        intro z hz
        simpa using hnone z hz
      simpa [searchsortedLeft, hxy] using this.symm
    · have hy : y < x := not_le.mp hxy
      rw [searchsortedLeft, if_neg hxy, ih hs.2]
      rw [List.countP_cons]
      simp [hy, Nat.add_comm]

/-- Counting is invariant under `np.sort`. -/
lemma countP_npSort (x : ℚ) (l : List ℚ) :
    (npSort l).countP (· < x) = l.countP (· < x) :=
  (List.perm_insertionSort (· ≤ ·) l).countP_eq _

/-- C8: when the surface pressure equals the bottom-level (maximum)
pressure everywhere, the unsmoothed terrain mask is 0 on the entire
bottom level (vertical index 0) and 1 at every other level and grid
point.  `p` is assumed strictly decreasing (surface first), as the
engine stores it. -/
theorem terrain_mask_bottom_level {I : Type} (p0 : ℚ) (ptail : List ℚ)
    (ps : I → ℚ) (hsort : (p0 :: ptail).Sorted (· > ·))
    (hps : ∀ ij, ps ij = p0) :
    ∀ ij : I, terrain_mask (p0 :: ptail) ps ij 0 = 0 ∧
      ∀ k, 1 ≤ k → terrain_mask (p0 :: ptail) ps ij k = 1 := by
  intro ij
  have hcount : (p0 :: ptail).countP (· < ps ij) = ptail.length := by
    rw [hps ij, List.countP_cons]
    rw [List.sorted_cons] at hsort
    have htail : ∀ z ∈ ptail, z < p0 := fun z hz => hsort.1 z hz
    have : ptail.countP (fun z => decide (z < p0)) = ptail.length := by
      rw [List.countP_eq_length]
      intro z hz
      simpa using htail z hz
    simp [this]
  have hsearch : searchsortedLeft (ps ij) (npSort (p0 :: ptail)) = ptail.length := by
    rw [npSort, searchsortedLeft_sorted _ _ (List.sorted_insertionSort (· ≤ ·) _)]
    rw [show List.insertionSort (· ≤ ·) (p0 :: ptail) = npSort (p0 :: ptail) from rfl]
    rw [countP_npSort, hcount]
  have hlevel : (p0 :: ptail).length - searchsortedLeft (ps ij) (npSort (p0 :: ptail)) = 1 := by
    rw [hsearch]; simp
  constructor
  · simp only [terrain_mask, hlevel]
    norm_num
  · intro k hk
    simp only [terrain_mask, hlevel]
    rw [if_pos hk]
    norm_num

/-- C8 witness: three strictly decreasing pressure levels with the
surface pressure equal everywhere to the bottom pressure. -/
theorem terrain_mask_bottom_level_witness :
    ((1000 : ℚ) :: [500, 100]).Sorted (· > ·) ∧
    (∀ _ : Unit, (fun _ : Unit => (1000 : ℚ)) () = 1000) ∧
    (terrain_mask ((1000 : ℚ) :: [500, 100]) (fun _ : Unit => 1000) () 0 = 0 ∧
      ∀ k, 1 ≤ k → terrain_mask ((1000 : ℚ) :: [500, 100]) (fun _ : Unit => 1000) () k = 1) :=
  ⟨by decide, fun _ => rfl,
    terrain_mask_bottom_level 1000 [500, 100] (fun _ => 1000) (by decide) (fun _ => rfl) ()⟩

/-! ## EnergyBudget.vertical_integration (AtmosphericEnergyBudget.py, lines 859-908)

Python source (level selection):
```
if pressure_range is None:
    pressure_range = [self.p[0], self.p[-1]]
pressure_range = np.sort(pressure_range)
level_mask = (pressure >= pressure_range[0]) & (pressure <= pressure_range[1])
level_mask &= (pressure != pressure[0]) & (pressure != pressure[-1])
level_mask = np.where(level_mask)[0]
scalar = np.take(scalar, level_mask, axis=axis)
integrated_scalar = simpson(scalar, x=pressure[level_mask], axis=axis, even='avg')
return self.direction * integrated_scalar / cn.g
```
The engine stores `self.p` sorted in descending order.  The Simpson
quadrature itself is numerical-library code; it enters here as an
explicit function argument `simpson values xs`.
-/

/-- The sorted integration limits `(lo, hi)`: the requested range, or
`[p[0], p[-1]]` by default, sorted ascending by `np.sort`. -/
def sortedRange (p : List ℚ) (prange : Option (ℚ × ℚ)) : ℚ × ℚ :=
  let pr := prange.getD (p.headD 0, p.getLastD 0)
  (min pr.1 pr.2, max pr.1 pr.2)

/-- Indices selected by `vertical_integration`'s `level_mask`: inside
the sorted range and with pressure different from both `p[0]` and
`p[-1]`. -/
def selectedLevels (p : List ℚ) (prange : Option (ℚ × ℚ)) : List ℕ :=
  let lo := (sortedRange p prange).1
  let hi := (sortedRange p prange).2
  (List.range p.length).filter fun i =>
    decide (lo ≤ p.getD i 0 ∧ p.getD i 0 ≤ hi ∧
      p.getD i 0 ≠ p.headD 0 ∧ p.getD i 0 ≠ p.getLastD 0)

/-- `EnergyBudget.vertical_integration` on one column: Simpson
integration of the selected levels, scaled by `direction / g`. -/
def vertical_integration (simpson : List ℚ → List ℚ → ℚ) (direction g : ℚ)
    (p : List ℚ) (scalar : ℕ → ℚ) (prange : Option (ℚ × ℚ)) : ℚ :=
  let idx := selectedLevels p prange
  direction * simpson (idx.map scalar) (idx.map fun i => p.getD i 0) / g

/-- Position-based description of the integrated levels: strictly
interior indices whose pressure lies inside the sorted range. -/
def interiorLevels (p : List ℚ) (prange : Option (ℚ × ℚ)) : List ℕ :=
  let lo := (sortedRange p prange).1
  let hi := (sortedRange p prange).2
  (List.range p.length).filter fun i =>
    decide (lo ≤ p.getD i 0 ∧ p.getD i 0 ≤ hi ∧ 0 < i ∧ i + 1 < p.length)

lemma getLastD_eq_getD : ∀ (l : List ℚ) (d : ℚ), l.getLastD d = l.getD (l.length - 1) d
  | [], _ => rfl
  | [_], _ => rfl
  | a :: b :: t, d => by
    have ih := getLastD_eq_getD (b :: t) d
    simpa [List.getLastD] using ih

lemma sorted_getD_lt (p : List ℚ) (hp : p.Sorted (· > ·)) {i j : ℕ}
    (hij : i < j) (hj : j < p.length) : p.getD j 0 < p.getD i 0 := by
  have hi : i < p.length := lt_trans hij hj
  rw [p.getD_eq_getElem 0 hi, p.getD_eq_getElem 0 hj]
  exact List.Sorted.rel_get_of_lt hp (by simpa using hij)

/-- C10: for every column, every integrator and every pressure range
(including the default whole-column range), the levels handed to the
Simpson rule are exactly the strictly interior indices whose pressure
lies inside the requested range — the first and last pressure levels
are always excluded — and the result is `direction * integral / g`. -/
theorem vertical_integration_excludes_boundaries
    (simpson : List ℚ → List ℚ → ℚ) (direction g : ℚ) (p : List ℚ)
    (scalar : ℕ → ℚ) (prange : Option (ℚ × ℚ)) (hp : p.Sorted (· > ·)) :
    selectedLevels p prange = interiorLevels p prange ∧
    vertical_integration simpson direction g p scalar prange =
      direction * simpson ((interiorLevels p prange).map scalar)
        ((interiorLevels p prange).map fun i => p.getD i 0) / g := by
  have hsel : selectedLevels p prange = interiorLevels p prange := by
    unfold selectedLevels interiorLevels
    apply List.filter_congr
    intro i hi
    rw [List.mem_range] at hi
    have hhead : p.headD 0 = p.getD 0 0 := by
      cases p with
      | nil => rfl
      | cons a t => rfl
    have hlast : p.getLastD 0 = p.getD (p.length - 1) 0 := getLastD_eq_getD p 0
    have h1 : p.getD i 0 ≠ p.headD 0 ↔ 0 < i := by
      rw [hhead]
      constructor
      · intro hne
        rcases Nat.eq_zero_or_pos i with h0 | h0
        · exact absurd (by rw [h0]) hne
        · exact h0
      · intro h0 heq
        exact absurd heq (ne_of_lt (sorted_getD_lt p hp h0 hi))
    have h2 : p.getD i 0 ≠ p.getLastD 0 ↔ i + 1 < p.length := by
      rw [hlast]
      constructor
      · intro hne
        rcases Nat.lt_or_ge (i + 1) p.length with hlt | hge
        · exact hlt
        · have : i = p.length - 1 := by omega
          exact absurd (by rw [this]) hne
      · intro hlt heq
        have hil : i < p.length - 1 := by omega
        have := sorted_getD_lt p hp hil (by omega)
        exact absurd heq (ne_of_gt this)
    simp only [decide_eq_decide]
    rw [and_congr_right_iff, and_congr_right_iff]
    intro _ _
    rw [h1, h2]
  exact ⟨hsel, by unfold vertical_integration; rw [hsel]⟩

/-- C10 witness: concrete three-level column with the default range;
the selected levels are exactly the interior index 1. -/
theorem vertical_integration_excludes_boundaries_witness :
    ([(3 : ℚ), 2, 1].Sorted (· > ·)) ∧
    (selectedLevels [(3 : ℚ), 2, 1] none = interiorLevels [(3 : ℚ), 2, 1] none ∧
      vertical_integration (fun vs _ => vs.sum) 1 2 [(3 : ℚ), 2, 1] (fun i => (i : ℚ)) none =
        1 * (fun (vs : List ℚ) (_ : List ℚ) => vs.sum)
            ((interiorLevels [(3 : ℚ), 2, 1] none).map fun i => (i : ℚ))
            ((interiorLevels [(3 : ℚ), 2, 1] none).map fun i =>
              [(3 : ℚ), 2, 1].getD i 0) / 2) :=
  ⟨by decide,
    vertical_integration_excludes_boundaries (fun vs _ => vs.sum) 1 2 _ _ none (by decide)⟩

/-! ## Construction-time input validation (C9)

`AtmosphericEnergyBudget.EnergyBudget.__init__` (lines 82-106):
```
if np.isnan(u).any() or np.isnan(v).any():
    raise ValueError('Arrays u and v cannot contain missing values')
if data_shape != v.shape: raise ValueError('u and v must be the same shape')
if t.shape != data_shape: raise ValueError('Temperature must be the same shape as u and v')
if w.shape != data_shape: raise ValueError('w must be the same shape as u and v')
if data_dim < 3: raise ValueError('variables must be at least 3D')
```
`src/io_tools.parse_dataset` (lines 464-472, used by the `seba.py`
variant) instead checks every required analysis field:
```
for name, values in arrays.items():
    if np.isnan(values).any():
        raise ValueError('Array {} contain missing values'.format(name))
```
NaN is modelled as the `none` value of an `Option ℚ` cell.
-/

/-- A raw input array: a shape and flat cell values, where a `none`
cell models a NaN. -/
structure RawField where
  shape : List ℕ
  values : List (Option ℚ)
deriving DecidableEq

/-- `np.isnan(f).any()`. -/
def RawField.hasNaN (f : RawField) : Bool := f.values.any fun x => x.isNone

/-- The validation prefix of `AtmosphericEnergyBudget.EnergyBudget.__init__`. -/
def validateInputs (u v w t : RawField) : Except String Unit :=
  if u.hasNaN || v.hasNaN then
    .error "Arrays u and v cannot contain missing values"
  else if u.shape ≠ v.shape then .error "u and v must be the same shape"
  else if t.shape ≠ u.shape then
    .error "Temperature must be the same shape as u and v"
  else if w.shape ≠ u.shape then .error "w must be the same shape as u and v"
  else if u.shape.length < 3 then .error "variables must be at least 3D"
  else .ok ()

/-- The NaN sanity loop of `io_tools.parse_dataset` over the required
analysis fields. -/
def parseDatasetNaNCheck : List (String × RawField) → Except String Unit
  | [] => .ok ()
  | (name, f) :: rest =>
    if f.hasNaN then .error ("Array " ++ name ++ " contain missing values")
    else parseDatasetNaNCheck rest

/-- C9 counterexample input: a temperature field containing a NaN cell
passes the `AtmosphericEnergyBudget` construction-time validation
unchanged (only `u` and `v` are checked for missing values). -/
theorem validateInputs_accepts_nan_temperature :
    validateInputs ⟨[1, 1, 4], [some 0]⟩ ⟨[1, 1, 4], [some 0]⟩
        ⟨[1, 1, 4], [some 0]⟩ ⟨[1, 1, 4], [none]⟩ = .ok () ∧
      RawField.hasNaN ⟨[1, 1, 4], [none]⟩ = true := by
  constructor
  · rfl
  · rfl

/-- C9 (amended): the `AtmosphericEnergyBudget` variant raises at
construction exactly when `u` or `v` contains NaN (or shapes are
inconsistent); NaN in `w` or `t` is not checked there.  The `seba.py`
variant checks every required field during `parse_dataset`. -/
theorem construction_nan_validation (u v w t : RawField)
    (fields : List (String × RawField)) :
    (validateInputs u v w t = .ok () ↔
      (u.hasNaN = false ∧ v.hasNaN = false ∧ u.shape = v.shape ∧
        t.shape = u.shape ∧ w.shape = u.shape ∧ ¬ u.shape.length < 3)) ∧
    (parseDatasetNaNCheck fields = .ok () ↔
      ∀ pr ∈ fields, pr.2.hasNaN = false) := by
  constructor
  · unfold validateInputs
    split_ifs with h1 h2 h3 h4 h5
    · constructor
      · intro h; simp at h
      · rintro ⟨hu, hv, -, -, -, -⟩
        simp only [Bool.or_eq_true] at h1
        rcases h1 with h | h <;> simp_all
    · constructor
      · intro h; simp at h
      · rintro ⟨-, -, hsh, -, -, -⟩
        exact h2 hsh
    · constructor
      · intro h; simp at h
      · rintro ⟨-, -, -, hsh, -, -⟩
        exact h3 hsh
    · constructor
      · intro h; simp at h
      · rintro ⟨-, -, -, -, hsh, -⟩
        exact h4 hsh
    · constructor
      · intro h; simp at h
      · rintro ⟨-, -, -, -, -, hlen⟩
        exact hlen h5
    · constructor
      · intro _
        simp only [Bool.or_eq_true, not_or] at h1
        exact ⟨by simpa using h1.1, by simpa using h1.2,
          not_not.mp h2, not_not.mp h3, not_not.mp h4, h5⟩
      · intro _; rfl
  · induction fields with
    | nil => simp [parseDatasetNaNCheck]
    | cons hd tl ih =>
      obtain ⟨name, f⟩ := hd
      by_cases hf : f.hasNaN
      · simp [parseDatasetNaNCheck, hf]
      · simp [parseDatasetNaNCheck, hf, ih]

/-! ## Spectral indexing and the cross-spectrum (C1)

`tools.getspecindx` (tools.py, lines 186-201) builds the triangular
truncation index set: all pairs `(m, n)` with `0 ≤ m ≤ n ≤ T`, `m`-major
(row-major flattening of `np.indices((T+1, T+1))` filtered by `n > m-1`).

`EnergyBudget.cross_spectrum` (AtmosphericEnergyBudget.py, lines
948-1030), per spherical-harmonic degree `d`:
```
clm_sqd = (clm1 * clm2.conjugate()).real        # clm2 = clm1 when omitted
clm_sqd = (np.where(ms == 0, 1.0, 2.0) * clm_sqd.T).T
degree_range = (ms <= degree) & (ls == degree)
spectrum[ln] = clm_sqd[degree_range].sum(axis=0)
spectrum /= 2.0
if convention.lower() == 'energy':
    spectrum *= 4.0 * np.pi
```
with `convention not in ['energy', 'power']` raising a `ValueError`
first.  Coefficients are addressed by their `(m, n)` pair.
-/

/-- `tools.getspecindx(T)`: the list of `(zonal wavenumber m, total
wavenumber n)` index pairs of the stored spectral coefficients. -/
def getspecindx (T : ℕ) : List (ℕ × ℕ) :=
  (List.range (T + 1)).flatMap fun m =>
    ((List.range (T + 1)).filter fun n => decide (m ≤ n)).map fun n => (m, n)

/-- The doubled real cross product `clm_sqd` of one coefficient
(`np.where(ms == 0, 1.0, 2.0) * (clm1 * clm2.conjugate()).real`). -/
noncomputable def clmSqd (clm1 clm2 : ℕ × ℕ → ℂ) (mn : ℕ × ℕ) : ℝ :=
  (if mn.1 = 0 then 1 else 2) * (clm1 mn * star (clm2 mn)).re

/-- `EnergyBudget.cross_spectrum` of the `AtmosphericEnergyBudget`
variant, evaluated at degree `d`. -/
noncomputable def cross_spectrum_AEB (T : ℕ) (clm1 : ℕ × ℕ → ℂ) (oclm2 : Option (ℕ × ℕ → ℂ))
    (convention : String) (d : ℕ) : Except String ℝ :=
  if convention ≠ "energy" ∧ convention ≠ "power" then
    .error "Parameter 'convention' must be one of ['energy', 'power']"
  else
    let clm2 := oclm2.getD clm1
    let spectrum : ℝ :=
      (((getspecindx T).filter fun mn =>
        decide (mn.1 ≤ d) && decide (mn.2 = d)).map (clmSqd clm1 clm2)).sum
    let spectrum := spectrum / 2
    .ok (if convention = "energy" then spectrum * (4 * Real.pi) else spectrum)

/-- Spec-side binned spectrum: for degree `d`, the sum over exactly the
stored coefficients with total wavenumber `n = d` of the `m ≠ 0`-doubled
real cross product. -/
noncomputable def binnedByDegree (T : ℕ) (clm1 clm2 : ℕ × ℕ → ℂ) (d : ℕ) : ℝ :=
  (((getspecindx T).filter fun mn => decide (mn.2 = d)).map (clmSqd clm1 clm2)).sum

lemma getspecindx_mem {T : ℕ} {mn : ℕ × ℕ} (h : mn ∈ getspecindx T) :
    mn.1 ≤ mn.2 ∧ mn.2 ≤ T := by
  unfold getspecindx at h
  rw [List.mem_flatMap] at h
  obtain ⟨m, hm, hmem⟩ := h
  rw [List.mem_map] at hmem
  obtain ⟨n, hn, rfl⟩ := hmem
  rw [List.mem_filter] at hn
  refine ⟨by simpa using hn.2, ?_⟩
  have := List.mem_range.mp hn.1
  omega

/-- C1: for every truncation, coefficient set, optional second
coefficient set and degree, `cross_spectrum` rejects invalid
conventions, and otherwise forms the real part of `clm1 * conj(clm2)`
(with `clm2 = clm1` when omitted), doubles every `m ≠ 0` coefficient,
sums exactly the coefficients with total wavenumber `n = d` (the
`m ≤ d` guard is redundant on the triangular index set), divides by 2,
and multiplies by `4π` exactly when `convention = 'energy'`. -/
theorem cross_spectrum_bins_by_total_wavenumber (T : ℕ) (clm1 : ℕ × ℕ → ℂ)
    (oclm2 : Option (ℕ × ℕ → ℂ)) (convention : String) (d : ℕ) :
    cross_spectrum_AEB T clm1 oclm2 convention d =
      if convention = "energy" then
        .ok (binnedByDegree T clm1 (oclm2.getD clm1) d / 2 * (4 * Real.pi))
      else if convention = "power" then
        .ok (binnedByDegree T clm1 (oclm2.getD clm1) d / 2)
      else .error "Parameter 'convention' must be one of ['energy', 'power']" := by
  have hfilter : ((getspecindx T).filter fun mn =>
      decide (mn.1 ≤ d) && decide (mn.2 = d)) =
      ((getspecindx T).filter fun mn => decide (mn.2 = d)) := by
    apply List.filter_congr
    intro mn hmn
    by_cases hd : mn.2 = d
    · have hle : mn.1 ≤ d := hd ▸ (getspecindx_mem hmn).1
      simp [hd, hle]
    · simp [hd]
  by_cases he : convention = "energy"
  · simp [cross_spectrum_AEB, binnedByDegree, he, hfilter]
  · by_cases hp : convention = "power"
    · simp [cross_spectrum_AEB, binnedByDegree, he, hp, hfilter]
    · simp [cross_spectrum_AEB, he, hp]

/-! ## Vector cross-spectrum normalization (C3)

`EnergyBudget.__init__` (AtmosphericEnergyBudget.py, lines 240-246):
```
self.kappa_h = kappa_from_deg(self.degrees)
self.vector_norm = np.expand_dims(self.kappa_h ** 2, (-1, -2))
self.vector_norm[0] = 1.0
```
and `_vector_spectra` (lines 830-844) returns
`(cross_spectrum(rot) + cross_spectrum(div)) / self.vector_norm`.
-/

/-- Modelled from the spec: `kappa_from_deg` of the `spectral_analysis`
module (not under `src/`), the horizontal wavenumber
`κ(n) = sqrt(n(n+1))/R` (§6 of the spec). -/
noncomputable def kappa_from_deg (R : ℝ) (n : ℕ) : ℝ :=
  Real.sqrt (n * (n + 1)) / R

/-- `self.vector_norm`: `kappa_h ** 2` with the degree-0 entry
overwritten by 1. -/
noncomputable def vector_norm (R : ℝ) (n : ℕ) : ℝ :=
  if n = 0 then 1 else kappa_from_deg R n ^ 2

/-- `EnergyBudget._vector_spectra`, given the already-binned
cross-spectra of the rotational and divergent coefficient pair:
`(cross_spectrum(rot) + cross_spectrum(div)) / vector_norm`. -/
noncomputable def vector_spectra_AEB (R : ℝ) (rotSpec divSpec : ℕ → ℝ) (d : ℕ) : ℝ :=
  (rotSpec d + divSpec d) / vector_norm R d

/-- C3: the vector-spectrum normalization equals `n(n+1)/r²` with the
degree-0 entry replaced by 1; it is strictly positive at every degree
(no division by zero at degree 0), and the division is exactly
invertible, so the returned vector cross-spectrum is finite. -/
theorem vector_norm_degree_zero_safe (R : ℝ) (hR : 0 < R) :
    vector_norm R 0 = 1 ∧
    (∀ n, vector_norm R n = if n = 0 then 1 else (n * (n + 1) : ℝ) / R ^ 2) ∧
    (∀ n, 0 < vector_norm R n) ∧
    (∀ rotSpec divSpec d,
      vector_spectra_AEB R rotSpec divSpec d * vector_norm R d =
        rotSpec d + divSpec d) := by
  have hval : ∀ n, vector_norm R n = if n = 0 then 1 else (n * (n + 1) : ℝ) / R ^ 2 := by
    intro n
    unfold vector_norm kappa_from_deg
    by_cases hn : n = 0
    · simp [hn]
    · rw [if_neg hn, if_neg hn, div_pow, Real.sq_sqrt]
      positivity
  have hpos : ∀ n, 0 < vector_norm R n := by
    intro n
    rw [hval n]
    by_cases hn : n = 0
    · simp [hn]
    · rw [if_neg hn]
      have hn1 : (0 : ℝ) < n * (n + 1) := by
        have : (1 : ℝ) ≤ (n : ℝ) := by exact_mod_cast Nat.one_le_iff_ne_zero.mpr hn
        nlinarith
      positivity
  refine ⟨by simp [vector_norm], hval, hpos, ?_⟩
  intro rotSpec divSpec d
  exact div_mul_cancel₀ _ (ne_of_gt (hpos d))

/-- C3 witness: concrete instantiation at the default earth radius
`R = 6371200`. -/
theorem vector_norm_degree_zero_safe_witness :
    (0 : ℝ) < 6371200 ∧
    (vector_norm 6371200 0 = 1 ∧
      (∀ n, vector_norm 6371200 n = if n = 0 then 1 else (n * (n + 1) : ℝ) / 6371200 ^ 2) ∧
      (∀ n, 0 < vector_norm 6371200 n) ∧
      (∀ rotSpec divSpec d,
        vector_spectra_AEB 6371200 rotSpec divSpec d * vector_norm 6371200 d =
          rotSpec d + divSpec d)) :=
  ⟨by norm_num, vector_norm_degree_zero_safe 6371200 (by norm_num)⟩

/-! ## Conversion DKE → RKE decomposition (C4)

`src/seba.py`, lines 744-787: `conversion_dke_rke` returns
`vorticity_advection + linear_conversion + vertical_transfer`, each of
the three mechanisms computed by its own exposed method from
`_vector_spectra` of the stored fields; `nonlinear_energy_fluxes`
(lines 348-356) recomputes the same total as `cdr_w + cdr_v + cdr_c`.
Grid points form an arbitrary index type `P`; the spherical-harmonic
backend enters as the abstract transform fields of `SebaState`.
-/

/-- A horizontal vector field on the grid: zonal and meridional
components. -/
def VField (P : Type) : Type := (P → ℝ) × (P → ℝ)

/-- Modelled from the spec: `tools.rotate_vector` (not under `src/`),
the vertical unit vector cross product `k̂ × u = (-v, u)` (cf. the
explicit `np.stack((-wind[1], wind[0]))` in AtmosphericEnergyBudget.py,
line 786). -/
def rotate_vector {P : Type} (v : VField P) : VField P :=
  (fun p => -(v.2 p), v.1)

/-- Pointwise product of a scalar and a vector field (numpy
broadcasting `a * wind`). -/
def smulVF {P : Type} (a : P → ℝ) (v : VField P) : VField P :=
  (fun p => a p * v.1 p, fun p => a p * v.2 p)

/-- The engine state entering the DKE→RKE conversions: the stored
physical fields together with the (abstract) spherical-harmonic
transform `computeRotdiv`, the degree cross-spectrum, and the vector
normalization. -/
structure SebaState (P : Type) where
  wind_rot : VField P
  wind_div : VField P
  wind_shear : VField P
  omega : P → ℝ
  fc : P → ℝ
  vrt : P → ℝ
  computeRotdiv : VField P → (ℕ → ℂ) × (ℕ → ℂ)
  crossSpectrum : (ℕ → ℂ) → (ℕ → ℂ) → ℕ → ℝ
  norm : ℕ → ℝ

/-- `EnergyBudget._vector_spectra` of the `seba.py` variant with two
arguments: sum of the curl-curl and divergence-divergence
cross-spectra, divided by the vector normalization. -/
noncomputable def vector_spectra {P : Type} (S : SebaState P)
    (v1 v2 : VField P) (d : ℕ) : ℝ :=
  let a := S.computeRotdiv v1
  let b := S.computeRotdiv v2
  (S.crossSpectrum a.1 b.1 d + S.crossSpectrum a.2 b.2 d) / S.norm d

/-- `conversion_dke_rke_vertical` (seba.py, lines 759-766). -/
noncomputable def conversion_dke_rke_vertical {P : Type} (S : SebaState P) (d : ℕ) : ℝ :=
  (-(vector_spectra S S.wind_shear (smulVF S.omega S.wind_rot) d) -
    vector_spectra S S.wind_rot (smulVF S.omega S.wind_shear) d) / 2

/-- `conversion_dke_rke_coriolis` (seba.py, lines 768-777). -/
noncomputable def conversion_dke_rke_coriolis {P : Type} (S : SebaState P) (d : ℕ) : ℝ :=
  (vector_spectra S S.wind_div (smulVF S.fc (rotate_vector S.wind_rot)) d -
    vector_spectra S S.wind_rot (smulVF S.fc (rotate_vector S.wind_div)) d) / 2

/-- `conversion_dke_rke_vorticity` (seba.py, lines 779-787). -/
noncomputable def conversion_dke_rke_vorticity {P : Type} (S : SebaState P) (d : ℕ) : ℝ :=
  (vector_spectra S S.wind_div (smulVF S.vrt (rotate_vector S.wind_rot)) d -
    vector_spectra S S.wind_rot (smulVF S.vrt (rotate_vector S.wind_div)) d) / 2

/-- `conversion_dke_rke` (seba.py, lines 744-757): the total conversion,
assembled from the three mechanism methods. -/
noncomputable def conversion_dke_rke {P : Type} (S : SebaState P) (d : ℕ) : ℝ :=
  conversion_dke_rke_vorticity S d + conversion_dke_rke_coriolis S d +
    conversion_dke_rke_vertical S d

/-- C4: for every engine state and degree, the three individually
exposed DKE→RKE conversion mechanisms (vertical motion, relative
vorticity, Coriolis) sum exactly to the total `conversion_dke_rke`. -/
theorem conversion_dke_rke_closure {P : Type} (S : SebaState P) (d : ℕ) :
    conversion_dke_rke_vertical S d + conversion_dke_rke_vorticity S d +
      conversion_dke_rke_coriolis S d = conversion_dke_rke S d := by
  unfold conversion_dke_rke
  ring

/-! ## Mask-aware gradients (C5)

`EnergyBudget.horizontal_gradient` (src/seba.py, lines 841-862):
```
scalar_gradient = self.sphere.getgrad(scalar)
if np.ma.is_masked(scalar):
    beta_gradient = self.sphere.getgrad((~scalar.mask).astype(float))
    scalar_gradient = scalar_gradient - beta_gradient * scalar
return scalar_gradient
```
and `vertical_gradient` (lines 864-878) with `gradient_1d` along the
pressure axis in place of `sphere.getgrad`.

The spectral backend `sphere.getgrad` (module `spherical_harmonics`)
and the finite-difference kernel `gradient_1d` are not under `src/`;
they enter as abstract operator arguments.  Masked arrays carry a
validity mask and are zero-filled before the spectral analysis
(io_tools.py, line 184), so the backend sees the zero-filled data.
-/

/-- A masked scalar field: cell values plus a validity mask
(`mask p = true` means the point is invalid / below terrain). -/
structure MaskedScalar (P : Type) where
  values : P → ℝ
  mask : P → Bool

/-- `np.ma.is_masked`: some element is masked. -/
def MaskedScalar.isMasked {P : Type} [Fintype P] (s : MaskedScalar P) : Bool :=
  decide (∃ p, s.mask p = true)

/-- The zero-filled data of a masked array, as seen by the transform
backend. -/
def MaskedScalar.filled {P : Type} (s : MaskedScalar P) : P → ℝ :=
  fun p => if s.mask p then 0 else s.values p

/-- `(~scalar.mask).astype(float)`: the indicator β of valid points. -/
def MaskedScalar.beta {P : Type} (s : MaskedScalar P) : P → ℝ :=
  fun p => if s.mask p then 0 else 1

/-- `EnergyBudget.horizontal_gradient`: the spectral gradient of the
(zero-filled) field, corrected by `- beta_gradient * scalar` when the
input carries masked points. -/
def horizontal_gradient {P : Type} [Fintype P]
    (getgrad : (P → ℝ) → (P → ℝ) × (P → ℝ)) (s : MaskedScalar P) :
    (P → ℝ) × (P → ℝ) :=
  let g := getgrad s.filled
  if s.isMasked then
    let bg := getgrad s.beta
    (fun p => g.1 p - bg.1 p * s.filled p, fun p => g.2 p - bg.2 p * s.filled p)
  else g

/-- `EnergyBudget.vertical_gradient`: 1D finite differencing along
pressure (`gradient_1d`, abstract operator `D`), with the same masked
correction. -/
def vertical_gradient {P : Type} [Fintype P]
    (D : (P → ℝ) → P → ℝ) (s : MaskedScalar P) : P → ℝ :=
  let g := D s.filled
  if s.isMasked then
    let bg := D s.beta
    fun p => g p - bg p * s.filled p
  else g

/-- The spec-side masked product `βφ`. -/
def MaskedScalar.betaPhi {P : Type} (s : MaskedScalar P) : P → ℝ :=
  fun p => s.beta p * s.values p

lemma filled_eq_betaPhi {P : Type} (s : MaskedScalar P) : s.filled = s.betaPhi := by
  funext p
  unfold MaskedScalar.filled MaskedScalar.betaPhi MaskedScalar.beta
  by_cases h : s.mask p <;> simp [h]

/-- C5: for a masked scalar `φ` the horizontal gradient returned is
exactly `∇(βφ) − (βφ)∇β` — the spectral gradient of the zero-filled
masked field minus the masked field times the gradient of the mask
indicator — and the vertical gradient applies the same identity with
the 1D pressure differencing `D`; for an unmasked field the plain
gradient of the raw values is returned. -/
theorem masked_gradient_identity {P : Type} [Fintype P]
    (getgrad : (P → ℝ) → (P → ℝ) × (P → ℝ)) (D : (P → ℝ) → P → ℝ)
    (s : MaskedScalar P) :
    horizontal_gradient getgrad s =
      (if s.isMasked then
        ((fun p => (getgrad s.betaPhi).1 p - s.betaPhi p * (getgrad s.beta).1 p),
         (fun p => (getgrad s.betaPhi).2 p - s.betaPhi p * (getgrad s.beta).2 p))
      else getgrad s.values) ∧
    vertical_gradient D s =
      (if s.isMasked then
        (fun p => D s.betaPhi p - s.betaPhi p * D s.beta p)
      else D s.values) := by
  have hval : ¬ s.isMasked = true → s.filled = s.values := by
    intro h
    funext p
    have hp : s.mask p = false := by
      by_contra hc
      exact h (by simp [MaskedScalar.isMasked]; exact ⟨p, by simpa using hc⟩)
    simp [MaskedScalar.filled, hp]
  constructor
  · unfold horizontal_gradient
    by_cases hm : s.isMasked
    · simp only [hm, if_true, filled_eq_betaPhi]
      exact Prod.ext (funext fun p => by ring) (funext fun p => by ring)
    · simp only [hm, Bool.false_eq_true, if_false, hval (by simpa using hm)]
  · unfold vertical_gradient
    by_cases hm : s.isMasked
    · simp only [hm, if_true, filled_eq_betaPhi]
      funext p
      ring
    · simp only [hm, Bool.false_eq_true, if_false, hval (by simpa using hm)]

/-! ## Spectral Mode-Coupling Correction (C2)

`EnergyBudget.cross_spectrum` of the `seba.py` variant (lines
1064-1099) accumulates the coefficient product over zonal wavenumber
and returns `spectrum.real / self.beta_fraction`, where
`self.beta_fraction = self.representative_mean(self.beta)` (lines
205-208) is the latitude-weighted, longitude-averaged global mean of
the terrain mask β at each level.
-/

/-- Modelled from the spec: `numeric_tools.integrate_order` (a Fortran
kernel, not under `src/`): bins a coefficient cross product by total
wavenumber, doubling the `m ≠ 0` coefficients and normalizing by 2
(§4.2 of the spec).  `L` indexes the trailing (time, level) sample
axes. -/
noncomputable def accumulate_order {L : Type} (T : ℕ) (cs : ℕ × ℕ → L → ℂ)
    (d : ℕ) (ℓ : L) : ℂ :=
  (((getspecindx T).filter fun mn => decide (mn.2 = d)).map
    fun mn => (if mn.1 = 0 then (1 : ℂ) else 2) * cs mn ℓ).sum / 2

/-- The coefficient product `clm1 * clm2.conjugate()` (with
`clm2 = clm1` when omitted), seba.py lines 1085-1092. -/
noncomputable def spectrumProduct {L : Type} (clm1 : ℕ × ℕ → L → ℂ)
    (oclm2 : Option (ℕ × ℕ → L → ℂ)) : ℕ × ℕ → L → ℂ :=
  fun mn ℓ => clm1 mn ℓ * star ((oclm2.getD clm1) mn ℓ)

/-- `EnergyBudget.cross_spectrum` (seba.py variant): accumulate the
product over order, take the real part and divide by the engine's
`beta_fraction` at the sample/level index. -/
noncomputable def cross_spectrum_seba {L : Type} (T : ℕ) (beta_fraction : L → ℝ)
    (clm1 : ℕ × ℕ → L → ℂ) (oclm2 : Option (ℕ × ℕ → L → ℂ)) (d : ℕ) (ℓ : L) : ℝ :=
  (accumulate_order T (spectrumProduct clm1 oclm2) d ℓ).re / beta_fraction ℓ

/-- `EnergyBudget.representative_mean` (seba.py, lines 984-1023) of an
unmasked field: `np.ma.average(·, weights, axis=lat)` followed by the
mean over longitude. -/
noncomputable def representative_mean {nlat nlon : ℕ} {L : Type}
    (w : Fin nlat → ℝ) (f : Fin nlat → Fin nlon → L → ℝ) (ℓ : L) : ℝ :=
  (∑ j : Fin nlon, (∑ i : Fin nlat, w i * f i j ℓ) / (∑ i : Fin nlat, w i)) / nlon

/-- C2: every cross-spectrum returned by the seba engine is the
accumulated spectrum divided by `beta_fraction`, the area-weighted
(latitude-weight `w`, longitude-uniform) global mean of the terrain
mask β at that sample/level — written out as the explicit double sum
`Σᵢⱼ wᵢ βᵢⱼ / (Σᵢ wᵢ · nlon)`. -/
theorem cross_spectrum_divides_by_beta_fraction {nlat nlon : ℕ} {L : Type}
    (T : ℕ) (w : Fin nlat → ℝ) (β : Fin nlat → Fin nlon → L → ℝ)
    (clm1 : ℕ × ℕ → L → ℂ) (oclm2 : Option (ℕ × ℕ → L → ℂ)) (d : ℕ) (ℓ : L) :
    cross_spectrum_seba T (representative_mean w β) clm1 oclm2 d ℓ =
      (accumulate_order T (spectrumProduct clm1 oclm2) d ℓ).re /
        ((∑ i : Fin nlat, ∑ j : Fin nlon, w i * β i j ℓ) /
          ((∑ i : Fin nlat, w i) * nlon)) := by
  unfold cross_spectrum_seba representative_mean
  rw [← Finset.sum_div, div_div, Finset.sum_comm]

/-! ## Dimension packing: prepare_data / recover_data (C6)

`tools.prepare_data` (tools.py, lines 88-151) moves the latitude,
longitude and level axes of an N-d array to positions `(0, 1, -1)`,
packs the remaining sample axes into one axis and records the
intermediate shape; `tools.recover_data` (lines 154-163) reverses the
reshape and the axis move.

`numpy` arrays are modelled as a shape list together with the flat
data list in C order (last axis fastest); `np.transpose`/`np.moveaxis`
and C-order `np.reshape` are modelled below.
-/

/-- C-order flat index of a multi-index (`np.ravel_multi_index`). -/
def rankC : List ℕ → List ℕ → ℕ
  | _ :: srest, i :: irest => i * srest.prod + rankC srest irest
  | _, _ => 0

/-- C-order multi-index of a flat index (`np.unravel_index`). -/
def unrankC : List ℕ → ℕ → List ℕ
  | [], _ => []
  | _ :: srest, f => f / srest.prod :: unrankC srest (f % srest.prod)

/-- A multi-index is inside the shape bounds. -/
def validIdx : List ℕ → List ℕ → Bool
  | [], [] => true
  | s :: srest, i :: irest => decide (i < s) && validIdx srest irest
  | _, _ => false

lemma unrankC_length : ∀ (shape : List ℕ) (f : ℕ), (unrankC shape f).length = shape.length
  | [], _ => rfl
  | _ :: srest, f => by simp [unrankC, unrankC_length srest]

lemma rankC_lt : ∀ {shape idx : List ℕ}, validIdx shape idx = true → rankC shape idx < shape.prod
  | [], [], _ => by simp [rankC]
  | s :: srest, i :: irest, h => by
    simp only [validIdx, Bool.and_eq_true, decide_eq_true_eq] at h
    have ih := rankC_lt h.2
    have hprod : 0 < srest.prod := Nat.pos_of_ne_zero (by
      intro h0
      rw [h0] at ih
      omega)
    calc rankC (s :: srest) (i :: irest) = i * srest.prod + rankC srest irest := rfl
      _ < i * srest.prod + srest.prod := by omega
      _ = (i + 1) * srest.prod := by ring
      _ ≤ s * srest.prod := Nat.mul_le_mul_right _ h.1
      _ = (s :: srest).prod := by simp
  | [], _ :: _, h => by simp [validIdx] at h
  | _ :: _, [], h => by simp [validIdx] at h

lemma validIdx_unrankC : ∀ (shape : List ℕ) (f : ℕ), f < shape.prod →
    validIdx shape (unrankC shape f) = true
  | [], _, _ => rfl
  | s :: srest, f, hf => by
    have hprod : 0 < srest.prod := by
      rcases Nat.eq_zero_or_pos srest.prod with h0 | h0
      · exfalso
        simp only [List.prod_cons, h0, Nat.mul_zero] at hf
        omega
      · exact h0
    have hs : 0 < s := by
      rcases Nat.eq_zero_or_pos s with h0 | h0
      · exfalso
        simp only [List.prod_cons, h0, Nat.zero_mul] at hf
        omega
      · exact h0
    simp only [unrankC, validIdx, Bool.and_eq_true, decide_eq_true_eq]
    constructor
    · exact (Nat.div_lt_iff_lt_mul hprod).mpr
        (by simpa [List.prod_cons, Nat.mul_comm] using hf)
    · exact validIdx_unrankC srest _ (Nat.mod_lt _ hprod)

lemma rankC_unrankC : ∀ (shape : List ℕ) (f : ℕ), f < shape.prod →
    rankC shape (unrankC shape f) = f
  | [], f, hf => by
    simp only [List.prod_nil] at hf
    have hf0 : f = 0 := by omega
    subst hf0
    rfl
  | s :: srest, f, hf => by
    have hprod : 0 < srest.prod := by
      rcases Nat.eq_zero_or_pos srest.prod with h0 | h0
      · exfalso
        simp only [List.prod_cons, h0, Nat.mul_zero] at hf
        omega
      · exact h0
    simp only [unrankC, rankC]
    rw [rankC_unrankC srest _ (Nat.mod_lt _ hprod)]
    exact Nat.div_add_mod' f srest.prod

lemma unrankC_rankC : ∀ {shape idx : List ℕ}, validIdx shape idx = true →
    unrankC shape (rankC shape idx) = idx
  | [], [], _ => rfl
  | s :: srest, i :: irest, h => by
    simp only [validIdx, Bool.and_eq_true, decide_eq_true_eq] at h
    have hrank := rankC_lt h.2
    have hprod : 0 < srest.prod := Nat.pos_of_ne_zero (by
      intro h0
      rw [h0] at hrank
      omega)
    simp only [unrankC, rankC]
    have hdiv : (i * srest.prod + rankC srest irest) / srest.prod = i := by
      rw [Nat.add_comm, Nat.add_mul_div_right _ _ hprod, Nat.div_eq_of_lt hrank,
        Nat.zero_add]
    have hmod : (i * srest.prod + rankC srest irest) % srest.prod = rankC srest irest := by
      rw [Nat.add_comm, Nat.add_mul_mod_self_right]
      exact Nat.mod_eq_of_lt hrank
    rw [hdiv, hmod, unrankC_rankC h.2]
  | [], _ :: _, h => by simp [validIdx] at h
  | _ :: _, [], h => by simp [validIdx] at h

/-- Number of indices `k < j` satisfying `P` (prefix count). -/
def cntP (P : ℕ → Bool) (j : ℕ) : ℕ := ((List.range j).filter P).length

lemma cntP_succ (P : ℕ → Bool) (j : ℕ) :
    cntP P (j + 1) = cntP P j + if P j then 1 else 0 := by
  unfold cntP
  rw [List.range_succ, List.filter_append, List.length_append]
  cases hP : P j <;> simp [hP]

lemma cntP_mono (P : ℕ → Bool) {j n : ℕ} (h : j ≤ n) : cntP P j ≤ cntP P n := by
  unfold cntP
  have hn : n = j + (n - j) := by omega
  rw [hn, List.range_add, List.filter_append, List.length_append]
  omega

lemma cntP_lt_of_mem (P : ℕ → Bool) {j n : ℕ} (hj : j < n) (hP : P j = true) :
    cntP P j < cntP P n := by
  have h1 : cntP P (j + 1) = cntP P j + 1 := by rw [cntP_succ, if_pos hP]
  have h2 : cntP P (j + 1) ≤ cntP P n := cntP_mono P (by omega)
  omega

lemma cntP_le_length (P : ℕ → Bool) (n : ℕ) :
    cntP P n = ((List.range n).filter P).length := rfl

/-- The `cntP P j`-th element of the ascending filtered range is `j`
itself, whenever `P j` holds. -/
lemma filter_range_getD (P : ℕ → Bool) :
    ∀ {n j : ℕ}, j < n → P j = true →
      ((List.range n).filter P).getD (cntP P j) 0 = j := by
  intro n
  induction n with
  | zero => intro j hj _; omega
  | succ m ih =>
    intro j hj hP
    rw [List.range_succ, List.filter_append]
    rcases Nat.lt_or_ge j m with hjm | hjm
    · have hlt : cntP P j < ((List.range m).filter P).length :=
        cntP_lt_of_mem P hjm hP
      have hlen : cntP P j < (((List.range m).filter P) ++ List.filter P [m]).length := by
        rw [List.length_append]; omega
      rw [List.getD_eq_getElem _ _ hlen, List.getElem_append_left hlt]
      rw [← List.getD_eq_getElem _ 0 hlt]
      exact ih hjm hP
    · have hjeq : j = m := by omega
      subst hjeq
      have hfil : List.filter P [j] = [j] := by simp [hP]
      rw [hfil]
      have hcnt : cntP P j = ((List.range j).filter P).length := rfl
      have hlen : cntP P j < (((List.range j).filter P) ++ [j]).length := by
        rw [List.length_append, hcnt]; simp
      rw [List.getD_eq_getElem _ _ hlen, List.getElem_append_right (by omega)]
      simp [hcnt]

/-- Index recovery: the position of the `k`-th filtered element inside
the filtered range is `k`. -/
lemma filter_range_cntP {P : ℕ → Bool} {n k : ℕ}
    (hk : k < ((List.range n).filter P).length) :
    cntP P (((List.range n).filter P).getD k 0) = k := by
  set L := (List.range n).filter P with hL
  have hnd : L.Nodup := (List.nodup_range n).filter P
  set m := L.getD k 0 with hm
  have hmem : m ∈ L := by
    rw [hm, List.getD_eq_getElem _ _ hk]
    exact List.getElem_mem hk
  have hmr : m ∈ List.range n ∧ P m = true := by
    have := List.mem_filter.mp (hL ▸ hmem)
    exact ⟨this.1, this.2⟩
  have hmn : m < n := List.mem_range.mp hmr.1
  have hcl : cntP P m < L.length := by
    have := cntP_lt_of_mem P hmn hmr.2
    rwa [cntP_le_length P n] at this
  have heq : L.getD (cntP P m) 0 = L.getD k 0 := by
    rw [filter_range_getD P hmn hmr.2, hm]
  rw [List.getD_eq_getElem _ _ hcl, List.getD_eq_getElem _ _ hk] at heq
  exact (hnd.getElem_inj_iff.mp heq)

lemma length_filter_add_not (p : ℕ → Bool) :
    ∀ l : List ℕ, (l.filter p).length + (l.filter fun x => !p x).length = l.length
  | [] => rfl
  | x :: xs => by
    have ih := length_filter_add_not p xs
    cases hx : p x <;> simp [List.filter, hx, ih] <;> omega

lemma filter_notMem_eq (src : List ℕ) (l : List ℕ) :
    (l.filter fun k => decide (k ∉ src)) = l.filter fun k => !decide (k ∈ src) := by
  apply List.filter_congr
  intro x _
  simp

/-- Counting members below `j` two ways: over the range, or over the
(duplicate-free) list itself. -/
lemma cntP_mem_eq (src : List ℕ) (hs : src.Nodup) (j : ℕ) :
    cntP (fun k => decide (k ∈ src)) j = (src.filter fun d => decide (d < j)).length := by
  unfold cntP
  have h1 : ((List.range j).filter fun k => decide (k ∈ src)).Nodup :=
    (List.nodup_range j).filter _
  have h2 : (src.filter fun d => decide (d < j)).Nodup := hs.filter _
  rw [← List.toFinset_card_of_nodup h1, ← List.toFinset_card_of_nodup h2]
  congr 1
  ext x
  simp only [List.mem_toFinset, List.mem_filter, List.mem_range, decide_eq_true_eq]
  tauto

lemma cntP_notMem (src : List ℕ) (hs : src.Nodup) (j : ℕ) :
    cntP (fun k => decide (k ∉ src)) j + (src.filter fun d => decide (d < j)).length = j := by
  rw [← cntP_mem_eq src hs j]
  unfold cntP
  rw [filter_notMem_eq]
  have := length_filter_add_not (fun k => decide (k ∈ src)) (List.range j)
  rw [Nat.add_comm]
  simpa using this

lemma length_filter_notMem (src : List ℕ) (n : ℕ) (hs : src.Nodup)
    (hsn : ∀ x ∈ src, x < n) :
    ((List.range n).filter fun k => decide (k ∉ src)).length = n - src.length := by
  have hmem : ((List.range n).filter fun k => decide (k ∈ src)).length = src.length := by
    have h1 : ((List.range n).filter fun k => decide (k ∈ src)).Nodup :=
      (List.nodup_range n).filter _
    rw [← List.toFinset_card_of_nodup h1, ← List.toFinset_card_of_nodup hs]
    congr 1
    ext x
    simp only [List.mem_toFinset, List.mem_filter, List.mem_range, decide_eq_true_eq]
    exact ⟨fun h => h.2, fun h => ⟨hsn x h, h⟩⟩
  rw [filter_notMem_eq]
  have := length_filter_add_not (fun k => decide (k ∈ src)) (List.range n)
  rw [hmem] at this
  simp only [List.length_range] at this
  omega

/-- A `numpy` array: shape plus the flat data in C order. -/
structure NDArray (α : Type) where
  shape : List ℕ
  data : List α
deriving DecidableEq

/-- Source multi-index of `np.transpose(·, order)`: the result element
at multi-index `t` is the input element at index `s` with
`s[j] = t[order.index(j)]`. -/
def applyOrderIdx (order t : List ℕ) : List ℕ :=
  (List.range order.length).map fun j => t.getD (order.indexOf j) 0

/-- `np.transpose(a, order)` on the flat C-order model. -/
def transpose {α : Type} [Inhabited α] (order : List ℕ) (a : NDArray α) : NDArray α :=
  { shape := order.map fun k => a.shape.getD k 0,
    data := (List.range (order.map fun k => a.shape.getD k 0).prod).map fun f =>
      a.data.getD (rankC a.shape
        (applyOrderIdx order (unrankC (order.map fun k => a.shape.getD k 0) f))) default }

/-- The axis permutation computed by `np.moveaxis(a, source,
destination)` (for distinct in-range axis lists): each moved axis lands
at its destination position, and the remaining axes keep their
original ascending order.  This is the closed form of numpy's
`order = [n for n in range(ndim) if n not in source]` followed by
sorted insertion of the `(destination, source)` pairs. -/
def moveAxisOrder (src dst : List ℕ) (n : ℕ) : List ℕ :=
  let rem := (List.range n).filter fun k => decide (k ∉ src)
  (List.range n).map fun i =>
    match (dst.zip src).find? (fun pr => decide (pr.1 = i)) with
    | some pr => pr.2
    | none => rem.getD (i - (dst.filter fun d => decide (d < i)).length) 0

/-- `int.toNat` after adding `ndim` to negative entries:
`normalize_axis_index` of numpy. -/
def normalizeAxis (n : ℕ) (x : ℤ) : ℕ := if x < 0 then (x + n).toNat else x.toNat

/-- `np.moveaxis` on the flat model. -/
def np_moveaxis {α : Type} [Inhabited α] (a : NDArray α) (src dst : List ℤ) : NDArray α :=
  transpose (moveAxisOrder (src.map (normalizeAxis a.shape.length))
    (dst.map (normalizeAxis a.shape.length)) a.shape.length) a

/-- C-order `np.reshape`: the flat data is unchanged. -/
def np_reshape {α : Type} (shape' : List ℕ) (a : NDArray α) : NDArray α :=
  { shape := shape', data := a.data }

lemma moveAxisOrder_length (src dst : List ℕ) (n : ℕ) :
    (moveAxisOrder src dst n).length = n := by
  simp [moveAxisOrder]

lemma getD_map_range (f : ℕ → ℕ) {n i : ℕ} (hi : i < n) :
    ((List.range n).map f).getD i 0 = f i := by
  rw [List.getD_eq_getElem _ _ (by simpa using hi)]
  simp

lemma mem_zip_exists : ∀ {l1 l2 : List ℕ} {pr : ℕ × ℕ}, pr ∈ l1.zip l2 →
    ∃ t, t < l1.length ∧ t < l2.length ∧ l1.getD t 0 = pr.1 ∧ l2.getD t 0 = pr.2
  | [], _, _, h => by simp [List.zip] at h
  | _ :: _, [], _, h => by simp [List.zip] at h
  | x :: xs, y :: ys, pr, h => by
    rcases List.mem_cons.mp h with h0 | h1
    · exact ⟨0, by simp, by simp, by simp [h0], by simp [h0]⟩
    · obtain ⟨t, ht1, ht2, he1, he2⟩ := mem_zip_exists h1
      exact ⟨t + 1, by simpa using ht1, by simpa using ht2, by simpa using he1,
        by simpa using he2⟩

lemma getD_zip {l1 l2 : List ℕ} {t : ℕ} (h1 : t < l1.length) (h2 : t < l2.length) :
    (l1.zip l2).getD t (0, 0) = (l1.getD t 0, l2.getD t 0) := by
  have hz : t < (l1.zip l2).length := by
    rw [List.length_zip]; omega
  rw [List.getD_eq_getElem _ _ hz, List.getD_eq_getElem _ _ h1,
    List.getD_eq_getElem _ _ h2]
  exact List.getElem_zip ..

/-- Value of the moveaxis permutation at a destination position. -/
lemma moveAxisOrder_getD_dst {src dst : List ℕ} {n t : ℕ}
    (hd : dst.Nodup) (htd : t < dst.length) (hts : t < src.length)
    (hin : dst.getD t 0 < n) :
    (moveAxisOrder src dst n).getD (dst.getD t 0) 0 = src.getD t 0 := by
  unfold moveAxisOrder
  rw [getD_map_range _ hin]
  have hmem : (dst.getD t 0, src.getD t 0) ∈ dst.zip src := by
    rw [← getD_zip htd hts]
    have hz : t < (dst.zip src).length := by rw [List.length_zip]; omega
    rw [List.getD_eq_getElem _ _ hz]
    exact List.getElem_mem hz
  cases hfind : (dst.zip src).find? (fun pr => decide (pr.1 = dst.getD t 0)) with
  | none =>
    exfalso
    have := List.find?_eq_none.mp hfind _ hmem
    simp at this
  | some pr =>
    have hp : pr.1 = dst.getD t 0 := by
      have := List.find?_some hfind
      simpa using this
    have hprm : pr ∈ dst.zip src := List.mem_of_find?_eq_some hfind
    obtain ⟨t', ht'd, ht's, he1, he2⟩ := mem_zip_exists hprm
    have htt : t' = t := by
      have h1 : dst.getD t' 0 = dst.getD t 0 := by rw [he1, hp]
      rw [List.getD_eq_getElem _ _ ht'd, List.getD_eq_getElem _ _ htd] at h1
      exact hd.getElem_inj_iff.mp h1
    subst htt
    simpa using he2.symm

/-- Value of the moveaxis permutation at a non-destination position. -/
lemma moveAxisOrder_getD_rem {src dst : List ℕ} {n i : ℕ}
    (hi : i < n) (hmem : i ∉ dst) :
    (moveAxisOrder src dst n).getD i 0 =
      ((List.range n).filter fun k => decide (k ∉ src)).getD
        (i - (dst.filter fun d => decide (d < i)).length) 0 := by
  unfold moveAxisOrder
  rw [getD_map_range _ hi]
  cases hfind : (dst.zip src).find? (fun pr => decide (pr.1 = i)) with
  | none => rfl
  | some pr =>
    exfalso
    have hp : pr.1 = i := by simpa using List.find?_some hfind
    have hprm : pr ∈ dst.zip src := List.mem_of_find?_eq_some hfind
    obtain ⟨t, htd, _, he1, _⟩ := mem_zip_exists hprm
    apply hmem
    rw [← hp, ← he1, List.getD_eq_getElem _ _ htd]
    exact List.getElem_mem htd

/-- Pointwise characterization of `validIdx`. -/
lemma validIdx_iff : ∀ {shape idx : List ℕ},
    validIdx shape idx = true ↔
      idx.length = shape.length ∧ ∀ j < shape.length, idx.getD j 0 < shape.getD j 0
  | [], [] => by simp [validIdx]
  | [], _ :: _ => by simp [validIdx]
  | _ :: _, [] => by simp [validIdx]
  | s :: srest, i :: irest => by
    simp only [validIdx, Bool.and_eq_true, decide_eq_true_eq, validIdx_iff,
      List.length_cons]
    constructor
    · rintro ⟨h1, h2, h3⟩
      refine ⟨by omega, ?_⟩
      intro j hj
      cases j with
      | zero => simpa using h1
      | succ k => simpa using h3 k (by omega)
    · rintro ⟨h1, h2⟩
      refine ⟨by simpa using h2 0 (by omega), by omega, ?_⟩
      intro j hj
      simpa using h2 (j + 1) (by omega)

lemma getD_map (f : ℕ → ℕ) (l : List ℕ) {i : ℕ} (hi : i < l.length) :
    (l.map f).getD i 0 = f (l.getD i 0) := by
  rw [List.getD_eq_getElem _ _ (by simpa using hi), List.getD_eq_getElem _ _ hi]
  simp

lemma getD_mem {l : List ℕ} {i : ℕ} (hi : i < l.length) : l.getD i 0 ∈ l := by
  rw [List.getD_eq_getElem _ _ hi]
  exact List.getElem_mem hi

lemma indexOf_eq_of_getD {l : List ℕ} (hnd : l.Nodup) {k : ℕ} (hk : k < l.length) :
    l.indexOf (l.getD k 0) = k := by
  have hmem : l.getD k 0 ∈ l := getD_mem hk
  have hidx : l.indexOf (l.getD k 0) < l.length := List.indexOf_lt_length.mpr hmem
  have h1 : l[l.indexOf (l.getD k 0)] = l.getD k 0 := List.getElem_indexOf hidx
  have h2 : l[l.indexOf (l.getD k 0)] = l[k] := by
    rw [h1, List.getD_eq_getElem _ _ hk]
  exact hnd.getElem_inj_iff.mp h2

/-- A left-inverse of a length-`n` list with entries below `n` forces
the list to be duplicate-free. -/
lemma nodup_of_comp {o1 o2 : List ℕ} {n : ℕ} (hlen2 : o2.length = n)
    (hcomp : ∀ j < n, o1.getD (o2.getD j 0) 0 = j) : o2.Nodup := by
  rw [List.nodup_iff_injective_getElem]
  rintro ⟨i, hi⟩ ⟨j, hj⟩ he
  simp only at he
  have hi' : i < n := by omega
  have hj' : j < n := by omega
  have h1 : o2.getD i 0 = o2.getD j 0 := by
    rw [List.getD_eq_getElem _ _ hi, List.getD_eq_getElem _ _ hj, he]
  have := hcomp i hi'
  rw [h1, hcomp j hj'] at this
  exact Fin.ext this.symm

/-- Membership of every `j < n` in a list with a right-inverse. -/
lemma mem_of_comp {o1 o2 : List ℕ} {n : ℕ} (hlen1 : o1.length = n)
    (hlen2 : o2.length = n) (hel2 : ∀ x ∈ o2, x < n)
    (hcomp : ∀ j < n, o1.getD (o2.getD j 0) 0 = j) :
    ∀ j < n, j ∈ o1 := by
  intro j hj
  have hk : o2.getD j 0 < n := hel2 _ (getD_mem (by omega))
  rw [← hcomp j hj]
  exact getD_mem (by omega)

/-- `np.moveaxis(·, src, dst)` and `np.moveaxis(·, dst, src)` compute
inverse axis permutations. -/
lemma moveAxisOrder_comp (src dst : List ℕ) (n : ℕ)
    (hs : src.Nodup) (hd : dst.Nodup) (hlen : src.length = dst.length)
    (hsn : ∀ x ∈ src, x < n) (hdn : ∀ x ∈ dst, x < n) :
    ∀ j < n, (moveAxisOrder src dst n).getD
      ((moveAxisOrder dst src n).getD j 0) 0 = j := by
  intro j hj
  by_cases hjs : j ∈ src
  · obtain ⟨t, ht, hte⟩ := List.mem_iff_getElem.mp hjs
    have htd : t < dst.length := by omega
    have htgd : src.getD t 0 = j := by rw [List.getD_eq_getElem _ _ ht, hte]
    have h2 : (moveAxisOrder dst src n).getD j 0 = dst.getD t 0 := by
      have := @moveAxisOrder_getD_dst dst src n t
        hs ht htd (by rw [htgd]; exact hj)
      rwa [htgd] at this
    rw [h2]
    have := @moveAxisOrder_getD_dst src dst n t
      hd htd ht (hdn _ (getD_mem htd))
    rw [this, htgd]
  · have h2 : (moveAxisOrder dst src n).getD j 0 =
        ((List.range n).filter fun k => decide (k ∉ dst)).getD
          (j - (src.filter fun d => decide (d < j)).length) 0 :=
      moveAxisOrder_getD_rem hj hjs
    have hcnt := cntP_notMem src hs j
    have hkeq : j - (src.filter fun d => decide (d < j)).length =
        cntP (fun k => decide (k ∉ src)) j := by omega
    have hPj : (fun k => decide (k ∉ src)) j = true := by simpa using hjs
    have hklt : cntP (fun k => decide (k ∉ src)) j <
        ((List.range n).filter fun k => decide (k ∉ dst)).length := by
      have h3 := cntP_lt_of_mem (fun k => decide (k ∉ src)) hj hPj
      have h4 : cntP (fun k => decide (k ∉ src)) n = n - src.length := by
        unfold cntP
        exact length_filter_notMem src n hs hsn
      rw [length_filter_notMem dst n hd hdn, ← hlen]
      omega
    rw [h2, hkeq]
    set k := cntP (fun k => decide (k ∉ src)) j with hkdef
    set m := ((List.range n).filter fun k => decide (k ∉ dst)).getD k 0 with hmdef
    have hmmem : m ∈ (List.range n).filter fun k => decide (k ∉ dst) :=
      getD_mem hklt
    have hmprops := List.mem_filter.mp hmmem
    have hmn : m < n := List.mem_range.mp hmprops.1
    have hmd : m ∉ dst := by simpa using hmprops.2
    have hcntm : cntP (fun x => decide (x ∉ dst)) m = k := filter_range_cntP hklt
    have h4 : (moveAxisOrder src dst n).getD m 0 =
        ((List.range n).filter fun x => decide (x ∉ src)).getD
          (m - (dst.filter fun d => decide (d < m)).length) 0 :=
      moveAxisOrder_getD_rem hmn hmd
    have hcnt2 := cntP_notMem dst hd m
    have hkeq2 : m - (dst.filter fun d => decide (d < m)).length = k := by omega
    rw [h4, hkeq2, hkdef]
    exact filter_range_getD _ hj hPj

/-- Every entry of the moveaxis permutation is a valid axis. -/
lemma moveAxisOrder_getD_lt (src dst : List ℕ) (n : ℕ)
    (hs : src.Nodup) (hd : dst.Nodup) (hlen : src.length = dst.length)
    (hsn : ∀ x ∈ src, x < n) (hdn : ∀ x ∈ dst, x < n) :
    ∀ i < n, (moveAxisOrder src dst n).getD i 0 < n := by
  intro i hi
  by_cases hid : i ∈ dst
  · obtain ⟨t, ht, hte⟩ := List.mem_iff_getElem.mp hid
    have hts : t < src.length := by omega
    have htgd : dst.getD t 0 = i := by rw [List.getD_eq_getElem _ _ ht, hte]
    have := @moveAxisOrder_getD_dst src dst n t
      hd ht hts (by rw [htgd]; exact hi)
    rw [htgd] at this
    rw [this]
    exact hsn _ (getD_mem hts)
  · rw [moveAxisOrder_getD_rem hi hid]
    have hcnt := cntP_notMem dst hd i
    have hkeq : i - (dst.filter fun d => decide (d < i)).length =
        cntP (fun k => decide (k ∉ dst)) i := by omega
    have hPi : (fun k => decide (k ∉ dst)) i = true := by simpa using hid
    have hklt : cntP (fun k => decide (k ∉ dst)) i <
        ((List.range n).filter fun k => decide (k ∉ src)).length := by
      have h3 := cntP_lt_of_mem (fun k => decide (k ∉ dst)) hi hPi
      have h4 : cntP (fun k => decide (k ∉ dst)) n = n - dst.length := by
        unfold cntP
        exact length_filter_notMem dst n hd hdn
      rw [length_filter_notMem src n hs hsn, hlen]
      omega
    rw [hkeq]
    have := getD_mem hklt
    have hp := List.mem_filter.mp this
    exact List.mem_range.mp hp.1

lemma moveAxisOrder_mem_lt (src dst : List ℕ) (n : ℕ)
    (hs : src.Nodup) (hd : dst.Nodup) (hlen : src.length = dst.length)
    (hsn : ∀ x ∈ src, x < n) (hdn : ∀ x ∈ dst, x < n) :
    ∀ x ∈ moveAxisOrder src dst n, x < n := by
  intro x hx
  obtain ⟨i, hi, hxe⟩ := List.mem_iff_getElem.mp hx
  have hin : i < n := by
    have := moveAxisOrder_length src dst n
    omega
  have : (moveAxisOrder src dst n).getD i 0 = x := by
    rw [List.getD_eq_getElem _ _ hi, hxe]
  rw [← this]
  exact moveAxisOrder_getD_lt src dst n hs hd hlen hsn hdn i hin

lemma applyOrderIdx_length (o t : List ℕ) : (applyOrderIdx o t).length = o.length := by
  simp [applyOrderIdx]

lemma applyOrderIdx_getD (o t : List ℕ) {j : ℕ} (hj : j < o.length) :
    (applyOrderIdx o t).getD j 0 = t.getD (o.indexOf j) 0 :=
  getD_map_range _ hj

/-- Applying inverse axis permutations in sequence is the identity on
multi-indices. -/
lemma applyOrderIdx_applyOrderIdx {o1 o2 : List ℕ} {n : ℕ} (t : List ℕ)
    (ht : t.length = n) (hlen1 : o1.length = n) (hlen2 : o2.length = n)
    (hnd1 : o1.Nodup) (hnd2 : o2.Nodup) (hel2 : ∀ x ∈ o2, x < n)
    (hcomp : ∀ j < n, o1.getD (o2.getD j 0) 0 = j) :
    applyOrderIdx o1 (applyOrderIdx o2 t) = t := by
  apply List.ext_getElem
  · rw [applyOrderIdx_length]; omega
  intro j hj1 hj2
  have hjn : j < n := by
    rw [applyOrderIdx_length] at hj1; omega
  rw [← List.getD_eq_getElem _ 0 hj1, ← List.getD_eq_getElem _ 0 hj2]
  rw [applyOrderIdx_getD _ _ (by omega)]
  have hjmem : j ∈ o1 := mem_of_comp hlen1 hlen2 hel2 hcomp j hjn
  have hk : o2.getD j 0 < n := hel2 _ (getD_mem (by omega))
  have hidx1 : o1.indexOf j = o2.getD j 0 := by
    have h1 : o1.getD (o2.getD j 0) 0 = j := hcomp j hjn
    nth_rewrite 1 [← h1]
    exact indexOf_eq_of_getD hnd1 (by omega)
  rw [hidx1, applyOrderIdx_getD _ _ (by omega)]
  congr 1
  exact indexOf_eq_of_getD hnd2 (by omega)

lemma transpose_shape {α : Type} [Inhabited α] (order : List ℕ) (a : NDArray α) :
    (transpose order a).shape = order.map fun k => a.shape.getD k 0 := rfl

lemma transpose_data_length {α : Type} [Inhabited α] (order : List ℕ) (a : NDArray α) :
    (transpose order a).data.length = (transpose order a).shape.prod := by
  simp [transpose]


lemma transpose_data_getElem {α : Type} [Inhabited α] (order : List ℕ)
    (a : NDArray α) {f : ℕ} (hf : f < (transpose order a).data.length) :
    (transpose order a).data[f] =
      a.data.getD (rankC a.shape
        (applyOrderIdx order (unrankC (transpose order a).shape f))) default := by
  show ((List.range (order.map fun k => a.shape.getD k 0).prod).map fun g =>
      a.data.getD (rankC a.shape
        (applyOrderIdx order (unrankC (order.map fun k => a.shape.getD k 0) g)))
          default)[f] = _
  rw [List.getElem_map, List.getElem_range]
  rfl

/-- Transposing with an axis permutation and then with its inverse
recovers the original array. -/
theorem transpose_transpose_of_inverse {α : Type} [Inhabited α] (a : NDArray α)
    (o1 o2 : List ℕ) (hlen1 : o1.length = a.shape.length)
    (hlen2 : o2.length = a.shape.length)
    (hel1 : ∀ x ∈ o1, x < a.shape.length) (hel2 : ∀ x ∈ o2, x < a.shape.length)
    (hcomp : ∀ j < a.shape.length, o1.getD (o2.getD j 0) 0 = j)
    (hcomp' : ∀ j < a.shape.length, o2.getD (o1.getD j 0) 0 = j)
    (hdata : a.data.length = a.shape.prod) :
    transpose o2 (transpose o1 a) = a := by
  set n := a.shape.length with hn
  have hnd2 : o2.Nodup := nodup_of_comp hlen2 hcomp
  have hnd1 : o1.Nodup := nodup_of_comp hlen1 hcomp'
  set shape1 := o1.map fun k => a.shape.getD k 0 with hshape1
  have hshape1len : shape1.length = n := by rw [hshape1, List.length_map, hlen1]
  -- the composed shape is the original shape
  have hshape2eq : (o2.map fun k => shape1.getD k 0) = a.shape := by
    apply List.ext_getElem
    · rw [List.length_map, hlen2]
    intro j hj1 hj2
    have hjn : j < n := by omega
    rw [← List.getD_eq_getElem _ 0 hj1, ← List.getD_eq_getElem _ 0 hj2]
    rw [getD_map _ _ (by omega)]
    have hko : o2.getD j 0 < n := hel2 _ (getD_mem (by omega))
    rw [hshape1, getD_map _ _ (by rw [hlen1]; exact hko)]
    rw [hcomp j hjn]
  have hshape2 : (transpose o2 (transpose o1 a)).shape = a.shape := by
    rw [transpose_shape]
    exact hshape2eq
  have hdatalen2 : (transpose o2 (transpose o1 a)).data.length = a.data.length := by
    rw [transpose_data_length, hshape2, hdata]
  have hdata2 : (transpose o2 (transpose o1 a)).data = a.data := by
    apply List.ext_getElem hdatalen2
    intro f hf1 hf2
    have hfp : f < a.shape.prod := by rw [← hdata]; exact hf2
    rw [transpose_data_getElem o2 (transpose o1 a) hf1, hshape2,
      transpose_shape o1 a, ← hshape1]
    set t2 := unrankC a.shape f with ht2
    have ht2len : t2.length = n := by rw [ht2, unrankC_length]
    have hvt2 : validIdx a.shape t2 = true := validIdx_unrankC a.shape f hfp
    set s2 := applyOrderIdx o2 t2 with hs2
    -- validity of the permuted index for the intermediate shape
    have hvs2 : validIdx shape1 s2 = true := by
      rw [validIdx_iff]
      constructor
      · rw [hs2, applyOrderIdx_length, hlen2, hshape1len]
      · intro j hj
        have hjn : j < n := by rw [hshape1len] at hj; exact hj
        rw [hs2, applyOrderIdx_getD _ _ (by omega)]
        have hjo2 : j ∈ o2 := mem_of_comp hlen2 hlen1 hel1 hcomp' j hjn
        have hidxlt : o2.indexOf j < o2.length := List.indexOf_lt_length.mpr hjo2
        have hval := (validIdx_iff.mp hvt2).2 (o2.indexOf j) (by omega)
        have hback : a.shape.getD (o2.indexOf j) 0 = shape1.getD j 0 := by
          have h5 := congrArg (fun l => l.getD (o2.indexOf j) 0) hshape2eq
          simp only at h5
          rw [getD_map _ _ hidxlt] at h5
          have h6 : o2.getD (o2.indexOf j) 0 = j := by
            rw [List.getD_eq_getElem _ _ hidxlt]
            exact List.getElem_indexOf hidxlt
          rw [h6] at h5
          exact h5.symm
        rw [← hback]
        exact hval
    have hrank : rankC shape1 s2 < (transpose o1 a).data.length := by
      rw [transpose_data_length, transpose_shape]
      exact rankC_lt hvs2
    rw [List.getD_eq_getElem _ _ hrank]
    rw [transpose_data_getElem o1 a hrank]
    have hunr : unrankC (transpose o1 a).shape (rankC shape1 s2) = s2 := by
      rw [transpose_shape]
      exact unrankC_rankC hvs2
    rw [hunr]
    have happly : applyOrderIdx o1 s2 = t2 := by
      rw [hs2]
      exact applyOrderIdx_applyOrderIdx t2 ht2len hlen1 hlen2 hnd1 hnd2 hel2 hcomp
    rw [happly, ht2, rankC_unrankC a.shape f hfp]
    exact List.getD_eq_getElem a.data default hf2
  calc transpose o2 (transpose o1 a)
      = ⟨(transpose o2 (transpose o1 a)).shape, (transpose o2 (transpose o1 a)).data⟩ := rfl
    _ = ⟨a.shape, a.data⟩ := by rw [hshape2, hdata2]
    _ = a := rfl

/-- Python `str.find` on a character: index of the first occurrence,
or `-1` when absent. -/
def strFind (s : List Char) (c : Char) : ℤ :=
  if c ∈ s then (s.indexOf c : ℤ) else -1

/-- The `info_dict` returned by `prepare_data`. -/
structure InfoDict where
  interm_shape : List ℕ
  origin_order : String
  output_order : String
deriving DecidableEq

/-- `tools.prepare_data(data, dim_order)`: validate, move the `y`, `x`,
`z` axes (located case-insensitively) to positions `(0, 1, -1)`, and
pack the remaining sample axes into one axis. -/
def prepare_data {α : Type} [Inhabited α] (a : NDArray α) (dim_order : String) :
    Except String (NDArray α × InfoDict) :=
  let chars := dim_order.toList
  if a.shape.length < 3 then .error "Input fields must be at least 3D"
  else if a.shape.length < chars.length then .error "Inconsistent number dimensions"
  else if 'x' ∉ chars ∨ 'y' ∉ chars then .error "A latitude-longitude grid is required"
  else if 'z' ∉ chars then .error "A vertical grid is required"
  else
    let lower := chars.map Char.toLower
    let spatial_dims : List ℤ := ['y', 'x', 'z'].map (strFind lower)
    let moved := np_moveaxis a spatial_dims [0, 1, -1]
    let s0 := moved.shape.getD 0 0
    let s1 := moved.shape.getD 1 0
    let slast := moved.shape.getLastD 0
    let packed := np_reshape
      [s0, s1, moved.shape.prod / (s0 * s1 * slast), slast] moved
    .ok (packed,
      { interm_shape := moved.shape,
        origin_order := dim_order,
        output_order := "yx(" ++
          String.mk (((chars.filter (· ≠ 'x')).filter (· ≠ 'y')).filter (· ≠ 'z')) ++
          ")z" })

/-- `tools.recover_data(data, info_dict)`: restore the intermediate
shape, then move axes `(0, 1, -1)` back to the positions of `y`, `x`,
`z` — located **case-sensitively** in the original order string. -/
def recover_data {α : Type} [Inhabited α] (a : NDArray α) (info : InfoDict) : NDArray α :=
  let b := np_reshape info.interm_shape a
  np_moveaxis b [0, 1, -1] (['y', 'x', 'z'].map (strFind info.origin_order.toList))

/-- C6 counterexample input: the 4-d array of shape `[2, 1, 1, 1]` with
`dim_order = "Xyxz"` — a string containing `'x'`, `'y'` and `'z'`.
`prepare_data` locates `'x'` case-insensitively at position 0 (the
lowered `'X'`), while `recover_data` locates it case-sensitively at
position 2, so the round trip returns shape `[1, 1, 2, 1]` instead of
the original array. -/
theorem prepare_recover_case_mismatch :
    'x' ∈ "Xyxz".toList ∧ 'y' ∈ "Xyxz".toList ∧ 'z' ∈ "Xyxz".toList ∧
    3 ≤ ([2, 1, 1, 1] : List ℕ).length ∧
    ([5, 7] : List ℕ).length = ([2, 1, 1, 1] : List ℕ).prod ∧
    (prepare_data (⟨[2, 1, 1, 1], [5, 7]⟩ : NDArray ℕ) "Xyxz").map
        (fun pi => recover_data pi.1 pi.2) =
      .ok (⟨[1, 1, 2, 1], [5, 7]⟩ : NDArray ℕ) ∧
    (⟨[1, 1, 2, 1], [5, 7]⟩ : NDArray ℕ) ≠ ⟨[2, 1, 1, 1], [5, 7]⟩ := by
  refine ⟨by decide, by decide, by decide, by decide, by decide, ?_, by decide⟩
  rfl

/-- Moving axes `S → D` and then `D → S` restores the array. -/
lemma moveaxis_moveaxis (α : Type) [Inhabited α] (a : NDArray α) (S D : List ℕ)
    (hs : S.Nodup) (hd : D.Nodup) (hlen : S.length = D.length)
    (hsn : ∀ x ∈ S, x < a.shape.length) (hdn : ∀ x ∈ D, x < a.shape.length)
    (hdata : a.data.length = a.shape.prod) :
    transpose (moveAxisOrder D S a.shape.length)
      (transpose (moveAxisOrder S D a.shape.length) a) = a := by
  set n := a.shape.length with hn
  exact transpose_transpose_of_inverse a
    (moveAxisOrder S D n) (moveAxisOrder D S n)
    (moveAxisOrder_length S D n) (moveAxisOrder_length D S n)
    (moveAxisOrder_mem_lt S D n hs hd hlen hsn hdn)
    (moveAxisOrder_mem_lt D S n hd hs hlen.symm hdn hsn)
    (moveAxisOrder_comp S D n hs hd hlen hsn hdn)
    (moveAxisOrder_comp D S n hd hs hlen.symm hdn hsn)
    hdata

/-- C6 (amended): `recover_data ∘ prepare_data` is the identity on
every array with at least 3 dimensions and consistent flat data, for
every `dim_order` containing `'x'`, `'y'`, `'z'` whose first
occurrences of those letters are unchanged by lowercasing (in
particular, any `dim_order` without capital `X`/`Y`/`Z` before them) —
the original claim fails only through `prepare_data`'s case-insensitive
versus `recover_data`'s case-sensitive axis lookup.  (`numpy`'s `-1`
reshape additionally requires the remaining dimensions to have nonzero
product; the flat model packs any shape losslessly.) -/
theorem prepare_recover_roundtrip {α : Type} [Inhabited α] (a : NDArray α)
    (dim_order : String)
    (hdim : 3 ≤ a.shape.length)
    (hlen : dim_order.toList.length ≤ a.shape.length)
    (hx : 'x' ∈ dim_order.toList) (hy : 'y' ∈ dim_order.toList)
    (hz : 'z' ∈ dim_order.toList)
    (hcase : ∀ c ∈ (['y', 'x', 'z'] : List Char),
      strFind (dim_order.toList.map Char.toLower) c = strFind dim_order.toList c)
    (hdata : a.data.length = a.shape.prod) :
    (prepare_data a dim_order).map (fun pi => recover_data pi.1 pi.2) = .ok a := by
  set n := a.shape.length with hn
  set lower := dim_order.toList.map Char.toLower with hlower
  have hll : lower.length = dim_order.toList.length := by
    rw [hlower, List.length_map]
  have hly : 'y' ∈ lower := by
    rw [hlower]
    exact List.mem_map.mpr ⟨'y', hy, by decide⟩
  have hlx : 'x' ∈ lower := by
    rw [hlower]
    exact List.mem_map.mpr ⟨'x', hx, by decide⟩
  have hlz : 'z' ∈ lower := by
    rw [hlower]
    exact List.mem_map.mpr ⟨'z', hz, by decide⟩
  set py := lower.indexOf 'y' with hpy
  set px := lower.indexOf 'x' with hpx
  set pz := lower.indexOf 'z' with hpz
  have hpy_lt : py < lower.length := List.indexOf_lt_length.mpr hly
  have hpx_lt : px < lower.length := List.indexOf_lt_length.mpr hlx
  have hpz_lt : pz < lower.length := List.indexOf_lt_length.mpr hlz
  have hpy_val : lower.getD py ' ' = 'y' := by
    rw [List.getD_eq_getElem _ _ hpy_lt]
    exact List.getElem_indexOf hpy_lt
  have hpx_val : lower.getD px ' ' = 'x' := by
    rw [List.getD_eq_getElem _ _ hpx_lt]
    exact List.getElem_indexOf hpx_lt
  have hpz_val : lower.getD pz ' ' = 'z' := by
    rw [List.getD_eq_getElem _ _ hpz_lt]
    exact List.getElem_indexOf hpz_lt
  have hd1 : py ≠ px := by
    intro h
    rw [h, hpx_val] at hpy_val
    exact absurd hpy_val (by decide)
  have hd2 : py ≠ pz := by
    intro h
    rw [h, hpz_val] at hpy_val
    exact absurd hpy_val (by decide)
  have hd3 : px ≠ pz := by
    intro h
    rw [h, hpz_val] at hpx_val
    exact absurd hpx_val (by decide)
  -- the two spatial-axis lists agree and normalize to [py, px, pz]
  have hfy : strFind lower 'y' = (py : ℤ) := by rw [strFind, if_pos hly]
  have hfx : strFind lower 'x' = (px : ℤ) := by rw [strFind, if_pos hlx]
  have hfz : strFind lower 'z' = (pz : ℤ) := by rw [strFind, if_pos hlz]
  have hSdef : (['y', 'x', 'z'].map (strFind lower)).map (normalizeAxis n) =
      [py, px, pz] := by
    simp only [List.map_cons, List.map_nil, hfy, hfx, hfz]
    simp [normalizeAxis]
  have hSdef' : (['y', 'x', 'z'].map (strFind dim_order.toList)).map (normalizeAxis n) =
      [py, px, pz] := by
    rw [show ['y', 'x', 'z'].map (strFind dim_order.toList) =
        ['y', 'x', 'z'].map (strFind lower) from ?_]
    · exact hSdef
    · simp only [List.map_cons, List.map_nil]
      rw [← hcase 'y' (by simp), ← hcase 'x' (by simp), ← hcase 'z' (by simp)]
  have hDdef : (([0, 1, -1] : List ℤ)).map (normalizeAxis n) = [0, 1, n - 1] := by
    simp only [List.map_cons, List.map_nil, normalizeAxis]
    norm_num
    omega
  -- evaluate prepare_data
  have hprep : prepare_data a dim_order =
      .ok (np_reshape
            [(np_moveaxis a (['y', 'x', 'z'].map (strFind lower)) [0, 1, -1]).shape.getD 0 0,
             (np_moveaxis a (['y', 'x', 'z'].map (strFind lower)) [0, 1, -1]).shape.getD 1 0,
             (np_moveaxis a (['y', 'x', 'z'].map (strFind lower)) [0, 1, -1]).shape.prod /
               ((np_moveaxis a (['y', 'x', 'z'].map (strFind lower)) [0, 1, -1]).shape.getD 0 0 *
                (np_moveaxis a (['y', 'x', 'z'].map (strFind lower)) [0, 1, -1]).shape.getD 1 0 *
                (np_moveaxis a (['y', 'x', 'z'].map (strFind lower)) [0, 1, -1]).shape.getLastD 0),
             (np_moveaxis a (['y', 'x', 'z'].map (strFind lower)) [0, 1, -1]).shape.getLastD 0]
            (np_moveaxis a (['y', 'x', 'z'].map (strFind lower)) [0, 1, -1]),
          { interm_shape :=
              (np_moveaxis a (['y', 'x', 'z'].map (strFind lower)) [0, 1, -1]).shape,
            origin_order := dim_order,
            output_order := "yx(" ++
              String.mk (((dim_order.toList.filter (· ≠ 'x')).filter
                (· ≠ 'y')).filter (· ≠ 'z')) ++ ")z" }) := by
    unfold prepare_data
    rw [if_neg (by omega), if_neg (by omega),
      if_neg (by push_neg; exact ⟨hx, hy⟩), if_neg (by push_neg; exact hz)]
  rw [hprep]
  simp only [Except.map]
  -- reduce the recover side
  have hmoved : np_moveaxis a (['y', 'x', 'z'].map (strFind lower)) [0, 1, -1] =
      transpose (moveAxisOrder [py, px, pz] [0, 1, n - 1] n) a := by
    show transpose (moveAxisOrder
      ((['y', 'x', 'z'].map (strFind lower)).map (normalizeAxis a.shape.length))
      (([0, 1, -1] : List ℤ).map (normalizeAxis a.shape.length)) a.shape.length) a = _
    rw [← hn, hSdef, hDdef]
  have hmlen : (np_moveaxis a (['y', 'x', 'z'].map (strFind lower))
      [0, 1, -1]).shape.length = n := by
    rw [hmoved, transpose_shape, List.length_map, moveAxisOrder_length]
  refine congrArg Except.ok ?_
  unfold recover_data np_reshape
  simp only
  rw [show (⟨(np_moveaxis a (['y', 'x', 'z'].map (strFind lower)) [0, 1, -1]).shape,
      (np_moveaxis a (['y', 'x', 'z'].map (strFind lower)) [0, 1, -1]).data⟩ : NDArray α) =
    np_moveaxis a (['y', 'x', 'z'].map (strFind lower)) [0, 1, -1] from rfl]
  rw [show np_moveaxis (np_moveaxis a (['y', 'x', 'z'].map (strFind lower)) [0, 1, -1])
        [0, 1, -1] (['y', 'x', 'z'].map (strFind dim_order.toList)) =
      transpose (moveAxisOrder
        (([0, 1, -1] : List ℤ).map (normalizeAxis
          (np_moveaxis a (['y', 'x', 'z'].map (strFind lower)) [0, 1, -1]).shape.length))
        ((['y', 'x', 'z'].map (strFind dim_order.toList)).map (normalizeAxis
          (np_moveaxis a (['y', 'x', 'z'].map (strFind lower)) [0, 1, -1]).shape.length))
        (np_moveaxis a (['y', 'x', 'z'].map (strFind lower)) [0, 1, -1]).shape.length)
        (np_moveaxis a (['y', 'x', 'z'].map (strFind lower)) [0, 1, -1]) from rfl]
  rw [hmlen, hSdef', hDdef, hmoved]
  exact moveaxis_moveaxis α a [py, px, pz] [0, 1, n - 1]
    (by simp [hd1, hd2, hd3])
    (by simp; omega)
    (by simp)
    (by
      intro x hxm
      simp only [List.mem_cons, List.mem_singleton] at hxm
      rcases hxm with rfl | rfl | rfl | h
      · omega
      · omega
      · omega
      · simp at h)
    (by
      intro x hxm
      simp only [List.mem_cons, List.mem_singleton] at hxm
      rcases hxm with rfl | rfl | rfl | h
      · omega
      · omega
      · omega
      · simp at h)
    hdata

/-- C6 witness: a concrete `(2, 1, 3)` array with `dim_order = "zxy"`
round-trips exactly. -/
theorem prepare_recover_roundtrip_witness :
    3 ≤ ([2, 1, 3] : List ℕ).length ∧
    "zxy".toList.length ≤ ([2, 1, 3] : List ℕ).length ∧
    'x' ∈ "zxy".toList ∧ 'y' ∈ "zxy".toList ∧ 'z' ∈ "zxy".toList ∧
    (∀ c ∈ (['y', 'x', 'z'] : List Char),
      strFind ("zxy".toList.map Char.toLower) c = strFind "zxy".toList c) ∧
    ([0, 1, 2, 3, 4, 5] : List ℕ).length = ([2, 1, 3] : List ℕ).prod ∧
    (prepare_data (⟨[2, 1, 3], [0, 1, 2, 3, 4, 5]⟩ : NDArray ℕ) "zxy").map
      (fun pi => recover_data pi.1 pi.2) = .ok ⟨[2, 1, 3], [0, 1, 2, 3, 4, 5]⟩ :=
  ⟨by decide, by decide, by decide, by decide, by decide, by decide, by decide,
    prepare_recover_roundtrip (⟨[2, 1, 3], [0, 1, 2, 3, 4, 5]⟩ : NDArray ℕ) "zxy"
      (by decide) (by decide) (by decide) (by decide) (by decide) (by decide) (by decide)⟩
